import Mathlib

/-!
Verification of the local order book, feature engine and quote generator of
the rs_smm_v2 market-making core.  The Rust source is embedded shallowly:
f64 values are idealized as exact rationals except where NaN/infinity
behaviour is the point of a claim, in which case an explicit IEEE-style
value type is used.  Library math functions that have no rational
counterpart (sqrt, ln, exp, tanh, the decimal-place count of a float) are
taken as parameters, so every theorem quantifies over them.
-/

/-- A price level as it appears in venue frames (struct Ask / Bid in the
source: a price and a quantity). -/
structure Level where
  price : ℚ
  qty : ℚ
deriving Repr, DecidableEq

/-- A side of the book: the BTreeMap from price to quantity, modelled as an
association list kept sorted by strictly ascending price (BTreeMap iteration
order). -/
abbrev Ladder := List (ℚ × ℚ)

/-- Entry-style insert of the BTreeMap: overwrite the quantity if the price
key exists, otherwise insert at the sorted position. -/
def insertLevel (p q : ℚ) : Ladder → Ladder
  | [] => [(p, q)]
  | (k, v) :: rest =>
    if p < k then (p, q) :: (k, v) :: rest
    else if p = k then (p, q) :: rest
    else (k, v) :: insertLevel p q rest

/-- Applies a list of levels to a ladder, one entry-insert per level, in
order (the for-loops of reset and update_bba). -/
def applyLevels (ls : List Level) (m : Ladder) : Ladder :=
  ls.foldl (fun acc lv => insertLevel lv.price lv.qty acc) m

/-- The largest value a finite f64 can carry, used as the default ask
threshold in BybitBook.update. -/
def maxF64 : ℚ := (2 ^ 53 - 1) * 2 ^ 971

/-- The maximum of a list of prices (iter().max_by on partial_cmp). -/
def listMax : List ℚ → Option ℚ
  | [] => none
  | x :: xs => some (xs.foldl max x)

/-- The minimum of a list of prices (iter().min_by on partial_cmp). -/
def listMin : List ℚ → Option ℚ
  | [] => none
  | x :: xs => some (xs.foldl min x)

/-- The local Bybit order book (struct BybitBook): event bookkeeping, the
two ladders, the cached extrema and mid price, and the venue parameters. -/
structure BybitBook where
  last_update : ℕ
  sequence : ℕ
  asks : Ladder
  bids : Ladder
  best_ask : Level
  best_bid : Level
  mid_price : ℚ
  tick_size : ℚ
  lot_size : ℚ
  min_notional : ℚ
  min_qty : ℚ
  post_only_max : ℚ
deriving Repr, DecidableEq

namespace BybitBook

/-- OrderBook::new for Bybit: every field zero or empty. -/
def new : BybitBook :=
  { last_update := 0, sequence := 0, asks := [], bids := []
    best_ask := ⟨0, 0⟩, best_bid := ⟨0, 0⟩, mid_price := 0
    tick_size := 0, lot_size := 0, min_notional := 0, min_qty := 0
    post_only_max := 0 }

/-- BybitBook::reset: overwrite last_update and sequence, then entry-insert
every snapshot level into the existing ladders.  The source neither clears
the maps first, nor removes zero quantities, nor recomputes the cached
extrema or the mid price. -/
def reset (b : BybitBook) (asks bids : List Level) (timestamp sequence : ℕ) :
    BybitBook :=
  { b with
    last_update := timestamp
    sequence := sequence
    asks := applyLevels asks b.asks
    bids := applyLevels bids b.bids }

/-- BybitBook::update_bba: drop stale frames, merge the delta, prune each
side against the best price of the incoming frame, drop zero quantities,
recompute the cached extrema and the mid price. -/
def update_bba (b : BybitBook) (asks bids : List Level)
    (timestamp sequence : ℕ) : BybitBook :=
  if timestamp ≤ b.last_update ∨ sequence ≤ b.sequence then b
  else
    let best_bid_price := listMax (bids.map Level.price)
    let best_ask_price := listMin (asks.map Level.price)
    let bids1 := applyLevels bids b.bids
    let bids2 := match best_bid_price with
      | some p => bids1.filter (fun kv : ℚ × ℚ => decide (kv.1 ≤ p))
      | none => bids1
    let asks1 := applyLevels asks b.asks
    let asks2 := match best_ask_price with
      | some p => asks1.filter (fun kv : ℚ × ℚ => decide (p ≤ kv.1))
      | none => asks1
    let bids3 := bids2.filter (fun kv => decide (kv.2 ≠ 0))
    let asks3 := asks2.filter (fun kv => decide (kv.2 ≠ 0))
    let bb := (bids3.getLast?.map fun kv => Level.mk kv.1 kv.2).getD ⟨0, 0⟩
    let ba := (asks3.head?.map fun kv => Level.mk kv.1 kv.2).getD ⟨0, 0⟩
    { b with
      last_update := timestamp
      sequence := sequence
      bids := bids3
      asks := asks3
      best_bid := bb
      best_ask := ba
      mid_price := (ba.price + bb.price) * (1 / 2) }

/-- BybitBook::update (depth delta): drop stale frames, compute per-side
thresholds from the top depth levels of the existing ladders, apply only
delta levels beyond the thresholds, drop zero quantities.  Does not touch
the cached extrema or the mid price. -/
def update (b : BybitBook) (asks bids : List Level) (timestamp levels : ℕ) :
    BybitBook :=
  if timestamp ≤ b.last_update then b
  else
    let top_ask_threshold :=
      (((b.asks.take levels).getLast?).map Prod.fst).getD maxF64
    let top_bid_threshold :=
      (((b.bids.reverse.take levels).getLast?).map Prod.fst).getD 0
    let asks1 := asks.foldl
      (fun acc a =>
        if top_ask_threshold ≤ a.price then insertLevel a.price a.qty acc
        else acc) b.asks
    let bids1 := bids.foldl
      (fun acc a =>
        if a.price ≤ top_bid_threshold then insertLevel a.price a.qty acc
        else acc) b.bids
    { b with
      last_update := timestamp
      asks := asks1.filter (fun kv => decide (kv.2 ≠ 0))
      bids := bids1.filter (fun kv => decide (kv.2 ≠ 0)) }

end BybitBook

/-- An order-book input event: a full snapshot (reset), a top-of-book frame
(update_bba) or a depth delta (update). -/
inductive BookEvent
  | snapshot (asks bids : List Level) (timestamp sequence : ℕ)
  | bba (asks bids : List Level) (timestamp sequence : ℕ)
  | depth (asks bids : List Level) (timestamp levels : ℕ)
deriving Repr, DecidableEq

/-- Dispatches one event to the corresponding book mutator. -/
def applyEvent (b : BybitBook) : BookEvent → BybitBook
  | .snapshot a bi t s => b.reset a bi t s
  | .bba a bi t s => b.update_bba a bi t s
  | .depth a bi t l => b.update a bi t l

/-- Whether an event is a snapshot. -/
def BookEvent.isSnapshot : BookEvent → Bool
  | .snapshot _ _ _ _ => true
  | _ => false

/-- A price a venue can quote: positive and strictly below f64::MAX. -/
def priceOK (p : ℚ) : Prop := 0 < p ∧ p < maxF64

/-- Every level of a frame side carries a quotable price. -/
def levelsOK (ls : List Level) : Prop := ∀ l ∈ ls, priceOK l.price

/-- A frame is internally uncrossed: each of its bid prices is strictly
below each of its ask prices. -/
def frameUncrossed (asks bids : List Level) : Prop :=
  ∀ lb ∈ bids, ∀ la ∈ asks, lb.price < la.price

/-- Basic well-formedness of an event: quotable prices and an internally
uncrossed frame. -/
def WFEventBasic : BookEvent → Prop
  | .snapshot a bi _ _ => levelsOK a ∧ levelsOK bi ∧ frameUncrossed a bi
  | .bba a bi _ _ => levelsOK a ∧ levelsOK bi ∧ frameUncrossed a bi
  | .depth a bi _ _ => levelsOK a ∧ levelsOK bi

/-- Strengthened well-formedness: top-of-book frames must additionally
carry both sides. -/
def WFEvent : BookEvent → Prop
  | .snapshot a bi _ _ => levelsOK a ∧ levelsOK bi ∧ frameUncrossed a bi
  | .bba a bi _ _ =>
      levelsOK a ∧ levelsOK bi ∧ frameUncrossed a bi ∧ a ≠ [] ∧ bi ≠ []
  | .depth a bi _ _ => levelsOK a ∧ levelsOK bi

/-- Every ladder key is a quotable price. -/
def ladderOK (m : Ladder) : Prop := ∀ kv ∈ m, priceOK kv.1

/-- The book is uncrossed: every bid key is strictly below every ask key
(equivalently, max bids < min asks whenever both sides are non-empty). -/
def Uncrossed (b : BybitBook) : Prop :=
  ∀ kb ∈ b.bids, ∀ ka ∈ b.asks, kb.1 < ka.1

/-- The invariant carried through event sequences: quotable keys on both
sides and an uncrossed book. -/
def GoodBook (b : BybitBook) : Prop :=
  ladderOK b.bids ∧ ladderOK b.asks ∧ Uncrossed b

/-- A Bybit public trade (WsTrade), restricted to the fields the feature
code reads: price, volume and side. -/
structure WsTrade where
  price : ℚ
  volume : ℚ
  side : String
deriving Repr, DecidableEq

/-- A Binance aggregated trade (AggrTradesEvent), restricted to the fields
the feature code reads; price and qty arrive as strings that still need
parsing. -/
structure AggrTradesEvent where
  price : String
  qty : String
  is_buyer_maker : Bool
deriving Repr, DecidableEq

/-- The per-venue trade window. -/
inductive TradeType
  | Bybit (trades : List WsTrade)
  | Binance (trades : List AggrTradesEvent)
deriving Repr, DecidableEq

/-- Volume and buy-volume accumulation over Binance trades.  The source
calls parse().unwrap() on each qty string; a failing parse panics, which is
modelled by a none result.  The parse function itself is a parameter. -/
def binanceVolumes (pf : String → Option ℚ) :
    List AggrTradesEvent → ℚ × ℚ → Option (ℚ × ℚ)
  | [], acc => some acc
  | tr :: rest, (total, buy) =>
    match pf tr.qty with
    | none => none
    | some q =>
      binanceVolumes pf rest (total + q, if tr.is_buyer_maker then buy else buy + q)

/-- calculate_volumes from features/trade.rs: total and buy volume of a
trade window; none models a panic on an unparsable Binance qty. -/
def calculate_volumes (pf : String → Option ℚ) : TradeType → Option (ℚ × ℚ)
  | .Bybit trades =>
    some (trades.foldl
      (fun acc tr =>
        (acc.1 + tr.volume, if tr.side = "Buy" then acc.2 + tr.volume else acc.2))
      (0, 0))
  | .Binance trades => binanceVolumes pf trades (0, 0)

/-- trade_imbalance from features/trade.rs; none models the propagated
panic of calculate_volumes. -/
def trade_imbalance (pf : String → Option ℚ) (trades : TradeType) : Option ℚ :=
  match calculate_volumes pf trades with
  | none => none
  | some (total_volume, buy_volume) =>
    if total_volume = 0 then some 0
    else some (2 * (buy_volume / total_volume) - 1)

/-- Single-pass volume and turnover sums of a Bybit trade window (the fold
inside avg_trade_price). -/
def bybitVolTurn (trades : List WsTrade) : ℚ × ℚ :=
  trades.foldl (fun acc tr => (acc.1 + tr.volume, acc.2 + tr.volume * tr.price)) (0, 0)

/-- Parse-filtered volume and turnover sums of a Binance trade window (the
filter_map plus fold inside avg_trade_price); trades whose price or qty
fail to parse are skipped. -/
def binanceVolTurn (pf : String → Option ℚ) (trades : List AggrTradesEvent) : ℚ × ℚ :=
  (trades.filterMap
      (fun tr =>
        match pf tr.qty, pf tr.price with
        | some q, some p => some (q, q * p)
        | _, _ => none)).foldl
    (fun acc qp => (acc.1 + qp.1, acc.2 + qp.2)) (0, 0)

/-- avg_trade_price from features/trade.rs: with no previous window return
mid_price; otherwise compare window volumes, returning the marginal VWAP
scaled by 1/tick_window when they differ and prev_avg when they agree or
the venue variants are mixed. -/
def avg_trade_price (pf : String → Option ℚ) (mid_price : ℚ)
    (old_trades : Option TradeType) (curr_trades : TradeType)
    (prev_avg : ℚ) (tick_window : ℕ) : ℚ :=
  match old_trades with
  | none => mid_price
  | some old_trades =>
    let inv_tick : ℚ := 1 / (tick_window : ℚ)
    match old_trades, curr_trades with
    | .Bybit o, .Bybit c =>
      let ov := bybitVolTurn o
      let cv := bybitVolTurn c
      if ov.1 ≠ cv.1 then ((cv.2 - ov.2) / (cv.1 - ov.1)) * inv_tick
      else prev_avg
    | .Binance o, .Binance c =>
      let ov := binanceVolTurn pf o
      let cv := binanceVolTurn pf c
      if ov.1 ≠ cv.1 then ((cv.2 - ov.2) / (cv.1 - ov.1)) * inv_tick
      else prev_avg
    | _, _ => prev_avg

/-- An f64 value: a finite rational (exact idealization), a signed
infinity, or NaN. -/
inductive F64
  | fin (q : ℚ)
  | pinf
  | ninf
  | nan
deriving Repr, DecidableEq

namespace F64

/-- IEEE negation. -/
def neg : F64 → F64
  | fin q => fin (-q)
  | pinf => ninf
  | ninf => pinf
  | nan => nan

/-- IEEE addition (signed zeros ignored). -/
def add : F64 → F64 → F64
  | fin a, fin b => fin (a + b)
  | fin _, pinf => pinf
  | fin _, ninf => ninf
  | pinf, fin _ => pinf
  | ninf, fin _ => ninf
  | pinf, pinf => pinf
  | ninf, ninf => ninf
  | pinf, ninf => nan
  | ninf, pinf => nan
  | nan, _ => nan
  | _, nan => nan

/-- IEEE subtraction. -/
def sub (x y : F64) : F64 := add x (neg y)

/-- IEEE multiplication (overflow to infinity ignored: rationals are
unbounded). -/
def mul : F64 → F64 → F64
  | fin a, fin b => fin (a * b)
  | fin a, pinf => if a = 0 then nan else if 0 < a then pinf else ninf
  | fin a, ninf => if a = 0 then nan else if 0 < a then ninf else pinf
  | pinf, fin b => if b = 0 then nan else if 0 < b then pinf else ninf
  | ninf, fin b => if b = 0 then nan else if 0 < b then ninf else pinf
  | pinf, pinf => pinf
  | ninf, ninf => pinf
  | pinf, ninf => ninf
  | ninf, pinf => ninf
  | nan, _ => nan
  | _, nan => nan

/-- IEEE division (signed zeros ignored: a nonzero rational divided by zero
gives the infinity of the numerator's sign, zero over zero gives NaN). -/
def div : F64 → F64 → F64
  | fin a, fin b =>
    if b = 0 then (if a = 0 then nan else if 0 < a then pinf else ninf)
    else fin (a / b)
  | fin _, pinf => fin 0
  | fin _, ninf => fin 0
  | pinf, fin b => if 0 ≤ b then pinf else ninf
  | ninf, fin b => if 0 ≤ b then ninf else pinf
  | pinf, pinf => nan
  | pinf, ninf => nan
  | ninf, pinf => nan
  | ninf, ninf => nan
  | nan, _ => nan
  | _, nan => nan

instance : Neg F64 := ⟨neg⟩
instance : Add F64 := ⟨add⟩
instance : Sub F64 := ⟨sub⟩
instance : Mul F64 := ⟨mul⟩
instance : Div F64 := ⟨div⟩

/-- IEEE equality as a Bool: NaN equals nothing. -/
def beq : F64 → F64 → Bool
  | fin a, fin b => decide (a = b)
  | pinf, pinf => true
  | ninf, ninf => true
  | _, _ => false

/-- IEEE strict less-than as a Bool: NaN compares false with everything. -/
def blt : F64 → F64 → Bool
  | fin a, fin b => decide (a < b)
  | fin _, pinf => true
  | ninf, fin _ => true
  | ninf, pinf => true
  | _, _ => false

/-- Strict greater-than, written as the flipped less-than. -/
def bgt (x y : F64) : Bool := blt y x

/-- Rust f64::max: the larger argument, ignoring NaN (NaN only when both
arguments are NaN). -/
def fmax : F64 → F64 → F64
  | nan, y => y
  | x, nan => x
  | fin a, fin b => fin (max a b)
  | pinf, _ => pinf
  | _, pinf => pinf
  | x, ninf => x
  | ninf, y => y

/-- Rust f64::min: the smaller argument, ignoring NaN. -/
def fmin : F64 → F64 → F64
  | nan, y => y
  | x, nan => x
  | fin a, fin b => fin (min a b)
  | ninf, _ => ninf
  | _, ninf => ninf
  | x, pinf => x
  | pinf, y => y

/-- Rust f64::abs (NaN stays NaN). -/
def fabs : F64 → F64
  | fin q => fin |q|
  | nan => nan
  | _ => pinf

/-- Rust f64::signum: 1 for non-negative finite values and +inf, -1 for
negative ones and -inf, NaN for NaN (signed zero ignored: 0 counts as
positive zero). -/
def signum : F64 → F64
  | fin q => if q < 0 then fin (-1) else fin 1
  | pinf => fin 1
  | ninf => fin (-1)
  | nan => nan

/-- Rust f64::clamp with finite bounds: NaN propagates, infinities land on
the bounds. -/
def clamp (x : F64) (lo hi : ℚ) : F64 :=
  match x with
  | fin q => fin (max lo (min hi q))
  | pinf => fin hi
  | ninf => fin lo
  | nan => nan

/-- Library tanh on an f64, with the rational branch taken as a parameter;
tanh of an infinity is the corresponding unit, tanh of NaN is NaN. -/
def tanhF (tanhq : ℚ → ℚ) : F64 → F64
  | fin q => fin (tanhq q)
  | pinf => fin 1
  | ninf => fin (-1)
  | nan => nan

/-- Library sqrt on an f64, rational branch as a parameter; sqrt of a
negative value or NaN is NaN. -/
def sqrtF (sqrtq : ℚ → ℚ) : F64 → F64
  | fin q => if q < 0 then nan else fin (sqrtq q)
  | pinf => pinf
  | ninf => nan
  | nan => nan

/-- iter().sum over f64 values: a left fold starting from 0.0. -/
def fsum (l : List F64) : F64 := l.foldl add (fin 0)

end F64

/-- The rolling-window rate-of-change tracker (struct ROC), with the fields
its statistics read. -/
structure ROC where
  window_size : ℕ
  values : List F64
  sum : F64
  sum_squares : F64
deriving Repr, DecidableEq

namespace ROC

/-- ROC::current: the most recent value, 0 if the window is empty. -/
def current (r : ROC) : F64 := (r.values.getLast?).getD (.fin 0)

/-- ROC::mean: sum over length, 0 if the window is empty. -/
def mean (r : ROC) : F64 :=
  if r.values.isEmpty then .fin 0 else r.sum / .fin (r.values.length : ℚ)

/-- ROC::std_dev: population standard deviation, 0 when fewer than two
values; the variance is floored at 0 before the square root. -/
def std_dev (sqrtq : ℚ → ℚ) (r : ROC) : F64 :=
  if r.values.length < 2 then .fin 0
  else
    let n : F64 := .fin (r.values.length : ℚ)
    let m := r.mean
    let variance := r.sum_squares / n - m * m
    F64.sqrtF sqrtq (F64.fmax variance (.fin 0))

/-- ROC::z_score: 0 when the standard deviation is 0, otherwise the current
value standardized. -/
def z_score (sqrtq : ℚ → ℚ) (r : ROC) : F64 :=
  let c := r.current
  let m := r.mean
  let std := r.std_dev sqrtq
  if F64.beq std (.fin 0) then .fin 0 else (c - m) / std

end ROC

/-- The mid-price-basis tracker (struct MPB), with the fields its
statistics read. -/
structure MPB where
  mid_price_basis : F64
  basis_array : List F64
  sum : F64
  sum_squares : F64
deriving Repr, DecidableEq

namespace MPB

/-- MPB::current_basis. -/
def current_basis (m : MPB) : F64 := m.mid_price_basis

/-- MPB::mean: sum over length, 0 if the window is empty. -/
def mean (m : MPB) : F64 :=
  if m.basis_array.isEmpty then .fin 0 else m.sum / .fin (m.basis_array.length : ℚ)

/-- MPB::std_dev: population standard deviation, 0 when fewer than two
values. -/
def std_dev (sqrtq : ℚ → ℚ) (m : MPB) : F64 :=
  if m.basis_array.length < 2 then .fin 0
  else
    let n : F64 := .fin (m.basis_array.length : ℚ)
    let mm := m.mean
    let variance := m.sum_squares / n - mm * mm
    F64.sqrtF sqrtq (F64.fmax variance (.fin 0))

/-- MPB::z_score: 0 when the standard deviation is 0. -/
def z_score (sqrtq : ℚ → ℚ) (m : MPB) : F64 :=
  let std := m.std_dev sqrtq
  if F64.beq std (.fin 0) then .fin 0 else (m.mid_price_basis - m.mean) / std

end MPB

/-- The rolling-volatility tracker, restricted to the one field
generate_skew reads. -/
structure RollingVolatility where
  current_vol : F64
deriving Repr, DecidableEq

/-- The feature engine (struct Engine in features/engine.rs): the stored
feature values generate_skew combines. -/
structure Engine where
  timestamp : ℕ
  bba_imbalance : F64
  deep_imbalance : List F64
  voi : F64
  ofi : F64
  trade_imbalance : F64
  price_impact : F64
  volatility : RollingVolatility
  rate_of_change : ROC
  mpb : MPB
  skew : F64
deriving Repr, DecidableEq

/-- Engine::generate_skew: combine order-flow, trade, book, depth and basis
signals, scale by momentum and inverse volatility, then tanh and clamp into
the unit interval.  The rational branches of sqrt and tanh are
parameters. -/
def Engine.generate_skew (sqrtq tanhq : ℚ → ℚ) (e : Engine) : Engine :=
  let order_flow : F64 :=
    if F64.bgt e.ofi (.fin 0) && F64.bgt e.voi (.fin 0) then .fin 1
    else if F64.blt e.ofi (.fin 0) && F64.blt e.voi (.fin 0) then .fin (-1)
    else .fin (1 / 2)
  let trade_skew := e.trade_imbalance.clamp (-1) 1
  let book_skew := e.bba_imbalance.clamp (-1) 1
  let depth_mean : F64 :=
    if e.deep_imbalance.isEmpty then .fin 0
    else F64.fsum e.deep_imbalance / .fin (e.deep_imbalance.length : ℚ)
  let basis_skew :=
    if F64.bgt (e.mpb.std_dev sqrtq) (.fin 0) then F64.tanhF tanhq (e.mpb.z_score sqrtq)
    else F64.signum e.mpb.current_basis
  let momentum_factor := F64.fabs (F64.tanhF tanhq (e.rate_of_change.z_score sqrtq))
  let volatility_factor := F64.fin 1 / F64.fmax e.volatility.current_vol (.fin (1 / 1000))
  let raw_skew :=
    F64.fin (3 / 10) * trade_skew + F64.fin (1 / 4) * book_skew
      + F64.fin (1 / 5) * depth_mean + F64.fin (3 / 20) * basis_skew
      + F64.fin (1 / 10) * order_flow
  { e with
    skew := (F64.tanhF tanhq (raw_skew * momentum_factor * volatility_factor)).clamp (-1) 1 }

/-- decay from utils/number.rs: exponential decay exp(-rate * value), with
rate defaulting to one half; the rational exp is a parameter. -/
def decay (expq : ℚ → ℚ) (value : ℚ) (rate : Option ℚ) : ℚ :=
  match rate with
  | some v => expq (-v * value)
  | none => expq (-(1 / 2) * value)

/-- BybitBook::calculate_weighted_ask: decayed sum of the top depth ask
quantities, from the best ask upward. -/
def BybitBook.calculate_weighted_ask (expq : ℚ → ℚ) (b : BybitBook)
    (depth : ℕ) (decay_rate : Option ℚ) : ℚ :=
  (((b.asks.take depth).enum).map
    (fun ikv => decay expq (ikv.1 : ℚ) decay_rate * ikv.2.2)).foldl (· + ·) 0

/-- BybitBook::calculate_weighted_bid: decayed sum of the top depth bid
quantities, from the best bid downward. -/
def BybitBook.calculate_weighted_bid (expq : ℚ → ℚ) (b : BybitBook)
    (depth : ℕ) (decay_rate : Option ℚ) : ℚ :=
  (((b.bids.reverse.take depth).enum).map
    (fun ikv => decay expq (ikv.1 : ℚ) decay_rate * ikv.2.2)).foldl (· + ·) 0

/-- BybitBook::get_wmid: imbalance-weighted mid.  The weighted quantities
are exact rationals, so the only irregular value arises in the division
0/0; the source then tests the imbalance against 0.0 with a plain float
comparison, which NaN passes. -/
def BybitBook.get_wmid (expq : ℚ → ℚ) (b : BybitBook) (depth : Option ℕ) : F64 :=
  let wq : ℚ × ℚ :=
    match depth with
    | some d =>
      (b.calculate_weighted_bid expq d (some (1 / 2)),
       b.calculate_weighted_ask expq d (some (1 / 2)))
    | none => (b.best_bid.qty, b.best_ask.qty)
  let total_qty := wq.1 + wq.2
  let imbalance : F64 := F64.fin wq.1 / F64.fin total_qty
  if !F64.beq imbalance (.fin 0) then
    F64.fin b.best_bid.price * (F64.fin 1 - imbalance)
      + F64.fin b.best_ask.price * imbalance
  else
    F64.fin b.mid_price

/-- Truncation toward zero (f64::trunc) as an integer. -/
def truncQ (q : ℚ) : ℤ := if 0 ≤ q then ⌊q⌋ else ⌈q⌉

/-- Rust f64::round: round half away from zero, as an integer. -/
def roundHalfAway (q : ℚ) : ℤ :=
  if 0 ≤ q then ⌊q + 1 / 2⌋ else -⌊-q + 1 / 2⌋

/-- round_step from utils/number.rs: round value to the nearest multiple of
step (half away from zero). -/
def round_step (value step : ℚ) : ℚ :=
  (roundHalfAway (value / step) : ℚ) * step

/-- round_to from utils/number.rs: truncate to the given number of decimal
places. -/
def round_to (x : ℚ) (digits : ℕ) : ℚ :=
  let factor : ℚ := 10 ^ digits
  (truncQ (x * factor) : ℚ) / factor

/-- round_price from trader/quote_gen.rs: round a price to the number of
decimal places of the tick size.  Counting decimal places of an f64 goes
through decimal formatting in the source, so the count is a parameter. -/
def round_price (cdp : ℚ → ℕ) (book : BybitBook) (price : ℚ) : ℚ :=
  round_to price (cdp book.tick_size)

/-- round_size from trader/quote_gen.rs: round a quantity to the lot
size. -/
def round_size (qty : ℚ) (book : BybitBook) : ℚ :=
  round_step qty book.lot_size

/-- geometric_weights from utils/number.rs: powers of the ratio r
(reversed when asked), normalized by their sum.  The source asserts
0 ≤ r ≤ 1, which holds at every call site (r = 0.37). -/
def geometric_weights (r : ℚ) (n : ℕ) (reverse : Bool) : List ℚ :=
  let weights :=
    if reverse then (List.range n).map (fun i => r ^ (n - 1 - i))
    else (List.range n).map (fun i => r ^ i)
  let s := weights.foldl (· + ·) 0
  weights.map (fun w => w / s)

/-- geomspace from utils/number.rs: n values spaced evenly in log space,
with both endpoints patched to be exact and the two-point case returned
directly.  The rational ln and exp are parameters.  The source panics for
n below 2 (an assert), so those inputs never produce orders. -/
def geomspace (lnq expq : ℚ → ℚ) (start stop : ℚ) (n : ℕ) : List ℚ :=
  if n = 2 then [start, stop]
  else
    let log_start := lnq start
    let log_end := lnq stop
    let body := (List.range n).map
      (fun i => expq (log_start + (log_end - log_start) * ((i : ℚ) / ((n : ℚ) - 1))))
    (body.set 0 start).set (n - 1) stop

/-- A batch order (tuple struct BatchOrder: symbol, price, qty, is_buy). -/
structure BatchOrder where
  symbol : String
  price : ℚ
  qty : ℚ
  is_buy : Bool
deriving Repr, DecidableEq

/-- The quote generator (struct QuoteGenerator), restricted to the fields
generate_skew_orders reads. -/
structure QuoteGenerator where
  position_qty : ℚ
  max_position_usd : ℚ
  inventory_delta : ℚ
  total_order : ℕ
  final_order_distance : ℚ
deriving Repr, DecidableEq

/-- QuoteGenerator::generate_skew_orders: anchor the best quotes around the
mid by spread and skew, lay geometric price ladders, weight the per-side
notional geometrically (bids only when inventory_delta < 0.5, asks only
when inventory_delta > -0.5), size each level, clip to post_only_max, round
price and size, and keep only orders meeting the minimum notional. -/
def QuoteGenerator.generate_skew_orders (g : QuoteGenerator)
    (sqrtq lnq expq : ℚ → ℚ) (cdp : ℚ → ℕ) (symbol : String)
    (spread skew : ℚ) (book : BybitBook) (is_positive_skew : Bool) :
    List BatchOrder :=
  let mid_price := book.mid_price
  let notional := book.min_notional
  let post_only_max := book.post_only_max
  let bba : ℚ × ℚ :=
    if is_positive_skew then
      let bid := mid_price - spread * (1 - sqrtq skew)
      (bid, bid + spread)
    else
      let ask := mid_price + spread * (1 - sqrtq skew)
      (ask - spread, ask)
  let dend := spread * g.final_order_distance
  let bid_prices := geomspace lnq expq (bba.1 - dend) bba.1 g.total_order
  let ask_prices := geomspace lnq expq bba.2 (bba.2 + dend) g.total_order
  let bid_r : ℚ := 37 / 100
  let ask_r : ℚ := 37 / 100
  let max_buy_qty :=
    if g.position_qty ≠ 0 then g.max_position_usd / 2 - g.position_qty * mid_price
    else g.max_position_usd / 2
  let bid_sizes :=
    if g.inventory_delta < 1 / 2 then
      (geometric_weights bid_r g.total_order false).map (fun w => w * max_buy_qty)
    else []
  let max_sell_qty :=
    if g.position_qty ≠ 0 then g.max_position_usd / 2 + g.position_qty * mid_price
    else g.max_position_usd / 2
  let ask_sizes :=
    if g.inventory_delta > -(1 / 2) then
      (geometric_weights ask_r g.total_order true).map (fun w => w * max_sell_qty)
    else []
  let orders := (List.range g.total_order).flatMap
    (fun i =>
      (match bid_prices.get? i, bid_sizes.get? i with
        | some bid_price, some bid_size =>
          [⟨symbol, round_price cdp book bid_price,
            round_size (min (bid_size / bid_price) post_only_max) book, true⟩]
        | _, _ => ([] : List BatchOrder))
      ++
      (match ask_prices.get? i, ask_sizes.get? i with
        | some ask_price, some ask_size =>
          [⟨symbol, round_price cdp book ask_price,
            round_size (min (ask_size / ask_price) post_only_max) book, false⟩]
        | _, _ => ([] : List BatchOrder)))
  orders.filter (fun o => decide (notional ≤ o.price * o.qty))

/-- Finiteness of an f64 value (neither NaN nor infinite). -/
def F64.isFinite : F64 → Prop
  | .fin _ => True
  | _ => False

/-- Membership of an f64 value in the closed unit interval [-1, 1]; NaN and
infinities are outside. -/
def F64.inUnitInterval : F64 → Prop
  | .fin q => -1 ≤ q ∧ q ≤ 1
  | _ => False

/-- All stored feature values that generate_skew reads are finite: the
scalar features, every deep-imbalance entry, the current volatility, and
the scalar state of the rate-of-change and basis trackers. -/
def Engine.allFinite (e : Engine) : Prop :=
  e.ofi.isFinite ∧ e.voi.isFinite ∧ e.trade_imbalance.isFinite
    ∧ e.bba_imbalance.isFinite ∧ (∀ x ∈ e.deep_imbalance, x.isFinite)
    ∧ e.volatility.current_vol.isFinite
    ∧ (∀ x ∈ e.rate_of_change.values, x.isFinite)
    ∧ e.rate_of_change.sum.isFinite ∧ e.rate_of_change.sum_squares.isFinite
    ∧ e.mpb.mid_price_basis.isFinite ∧ e.mpb.sum.isFinite
    ∧ e.mpb.sum_squares.isFinite

/-- A book holding one resting ask at price 50, quantity 3, with matching
cached best ask and mid price. -/
def bookC2 : BybitBook :=
  { BybitBook.new with asks := [(50, 3)], best_ask := ⟨50, 3⟩, mid_price := 25 }

/-- A book whose last event carried timestamp 10 and sequence 5. -/
def bookC4 : BybitBook := { BybitBook.new with last_update := 10, sequence := 5 }

/-- A book with an empty bid ladder and one resting ask. -/
def bookC10 : BybitBook := { BybitBook.new with asks := [(100, 2)] }

/-- A two-sided top-of-book frame: ask 100, bid 90. -/
def evBBA1 : BookEvent := .bba [⟨100, 1⟩] [⟨90, 1⟩] 1 1

/-- A bid-only top-of-book frame at price 105, above the resting ask of
evBBA1. -/
def evBBA2 : BookEvent := .bba [] [⟨105, 2⟩] 2 2

/-- A snapshot with ask 100 and bid 90. -/
def evSnap1 : BookEvent := .snapshot [⟨100, 1⟩] [⟨90, 1⟩] 1 1

/-- A later snapshot with ask 110 and bid 105, internally uncrossed but
crossing the resting ask of evSnap1. -/
def evSnap2 : BookEvent := .snapshot [⟨110, 1⟩] [⟨105, 1⟩] 2 2

/-- An empty basis tracker. -/
def mpbZero : MPB := ⟨.fin 0, [], .fin 0, .fin 0⟩

/-- An empty rate-of-change tracker. -/
def rocZero : ROC := ⟨2, [], .fin 0, .fin 0⟩

/-- An engine state whose trade imbalance is NaN and whose other features
are zero. -/
def engNan : Engine :=
  ⟨0, .fin 0, [], .fin 0, .fin 0, F64.nan, .fin 0, ⟨.fin 0⟩, rocZero, mpbZero, .fin 0⟩

/-- An engine state with every feature finite. -/
def engZero : Engine :=
  ⟨0, .fin 0, [.fin 0], .fin 1, .fin 2, .fin 0, .fin 0, ⟨.fin 0⟩, rocZero, mpbZero, .fin 0⟩

/-- A book with empty ladders and mid price 5. -/
def bookC7 : BybitBook := { BybitBook.new with mid_price := 5 }

/-- A one-level book: bid (90, 2) and ask (100, 3). -/
def bookC7w : BybitBook :=
  { BybitBook.new with
    bids := [(90, 2)], asks := [(100, 3)]
    best_bid := ⟨90, 2⟩, best_ask := ⟨100, 3⟩, mid_price := 95 }

/-- Venue parameters for the quoting examples: lot size 1, post-only
maximum 10 (a multiple of the lot size). -/
def bookC8 : BybitBook :=
  { BybitBook.new with
    mid_price := 100, post_only_max := 10, lot_size := 1
    tick_size := 1 }

/-- A generator whose inventory delta is 0.6 (above the bid guardrail). -/
def genC8 : QuoteGenerator := ⟨0, 100, 3 / 5, 2, 10⟩

/-- Venue parameters with a post-only maximum of 2.5 that is not a multiple
of the lot size 1. -/
def bookC9 : BybitBook :=
  { BybitBook.new with
    mid_price := 100, post_only_max := 5 / 2, lot_size := 1
    tick_size := 1 }

/-- A flat generator allowed both sides, two orders per side. -/
def genC9 : QuoteGenerator := ⟨0, 2000, 0, 2, 10⟩


theorem F64.add_def (x y : F64) : x + y = F64.add x y := rfl

theorem F64.sub_def (x y : F64) : x - y = F64.sub x y := rfl

theorem F64.mul_def (x y : F64) : x * y = F64.mul x y := rfl

theorem F64.div_def (x y : F64) : x / y = F64.div x y := rfl

theorem F64.neg_def (x : F64) : -x = F64.neg x := rfl

theorem mem_insertLevel {p q : ℚ} :
    ∀ {l : Ladder} {kv : ℚ × ℚ}, kv ∈ insertLevel p q l → kv = (p, q) ∨ kv ∈ l := by
  intro l
  induction l with
  | nil =>
    intro kv h
    simp [insertLevel] at h
    exact Or.inl h
  | cons hd tl ih =>
    intro kv h
    obtain ⟨k, v⟩ := hd
    unfold insertLevel at h
    split at h
    · rcases List.mem_cons.mp h with h | h
      · exact Or.inl h
      · exact Or.inr h
    · split at h
      · rcases List.mem_cons.mp h with h | h
        · exact Or.inl h
        · exact Or.inr (List.mem_cons_of_mem _ h)
      · rcases List.mem_cons.mp h with h | h
        · exact Or.inr (by simp [h])
        · rcases ih h with h' | h'
          · exact Or.inl h'
          · exact Or.inr (List.mem_cons_of_mem _ h')

theorem mem_applyLevels :
    ∀ (ls : List Level) (m : Ladder) {kv : ℚ × ℚ}, kv ∈ applyLevels ls m →
      kv ∈ m ∨ ∃ lv ∈ ls, kv = (lv.price, lv.qty) := by
  intro ls
  induction ls with
  | nil => intro m kv h; exact Or.inl h
  | cons hd tl ih =>
    intro m kv h
    have h2 := ih (insertLevel hd.price hd.qty m) h
    rcases h2 with h2 | ⟨lv, hlv, rfl⟩
    · rcases mem_insertLevel h2 with h3 | h3
      · exact Or.inr ⟨hd, by simp, h3⟩
      · exact Or.inl h3
    · exact Or.inr ⟨lv, List.mem_cons_of_mem _ hlv, rfl⟩

theorem mem_updateAskFold (t : ℚ) :
    ∀ (ls : List Level) (m : Ladder) {kv : ℚ × ℚ},
      kv ∈ ls.foldl
        (fun acc a => if t ≤ a.price then insertLevel a.price a.qty acc else acc) m →
      kv ∈ m ∨ ∃ a ∈ ls, t ≤ a.price ∧ kv = (a.price, a.qty) := by
  intro ls
  induction ls with
  | nil => intro m kv h; exact Or.inl h
  | cons hd tl ih =>
    intro m kv h
    have h2 := ih (if t ≤ hd.price then insertLevel hd.price hd.qty m else m) h
    rcases h2 with h2 | ⟨a, ha, hta, rfl⟩
    · by_cases hc : t ≤ hd.price
      · rw [if_pos hc] at h2
        rcases mem_insertLevel h2 with h3 | h3
        · exact Or.inr ⟨hd, by simp, hc, h3⟩
        · exact Or.inl h3
      · rw [if_neg hc] at h2
        exact Or.inl h2
    · exact Or.inr ⟨a, List.mem_cons_of_mem _ ha, hta, rfl⟩

theorem mem_updateBidFold (t : ℚ) :
    ∀ (ls : List Level) (m : Ladder) {kv : ℚ × ℚ},
      kv ∈ ls.foldl
        (fun acc a => if a.price ≤ t then insertLevel a.price a.qty acc else acc) m →
      kv ∈ m ∨ ∃ a ∈ ls, a.price ≤ t ∧ kv = (a.price, a.qty) := by
  intro ls
  induction ls with
  | nil => intro m kv h; exact Or.inl h
  | cons hd tl ih =>
    intro m kv h
    have h2 := ih (if hd.price ≤ t then insertLevel hd.price hd.qty m else m) h
    rcases h2 with h2 | ⟨a, ha, hta, rfl⟩
    · by_cases hc : hd.price ≤ t
      · rw [if_pos hc] at h2
        rcases mem_insertLevel h2 with h3 | h3
        · exact Or.inr ⟨hd, by simp, hc, h3⟩
        · exact Or.inl h3
      · rw [if_neg hc] at h2
        exact Or.inl h2
    · exact Or.inr ⟨a, List.mem_cons_of_mem _ ha, hta, rfl⟩

theorem foldl_max_mem : ∀ (xs : List ℚ) (x : ℚ), xs.foldl max x ∈ x :: xs := by
  intro xs
  induction xs with
  | nil => intro x; simp
  | cons y ys ih =>
    intro x
    rw [List.foldl_cons]
    have h := ih (max x y)
    rcases List.mem_cons.mp h with h | h
    · rw [h]
      rcases max_choice x y with h' | h' <;> rw [h'] <;> simp
    · exact List.mem_cons_of_mem _ (List.mem_cons_of_mem _ h)

theorem foldl_min_mem : ∀ (xs : List ℚ) (x : ℚ), xs.foldl min x ∈ x :: xs := by
  intro xs
  induction xs with
  | nil => intro x; simp
  | cons y ys ih =>
    intro x
    rw [List.foldl_cons]
    have h := ih (min x y)
    rcases List.mem_cons.mp h with h | h
    · rw [h]
      rcases min_choice x y with h' | h' <;> rw [h'] <;> simp
    · exact List.mem_cons_of_mem _ (List.mem_cons_of_mem _ h)

theorem listMax_mem {l : List ℚ} {m : ℚ} (h : listMax l = some m) : m ∈ l := by
  cases l with
  | nil => simp [listMax] at h
  | cons x xs =>
    simp only [listMax, Option.some.injEq] at h
    rw [← h]
    exact foldl_max_mem xs x

theorem listMin_mem {l : List ℚ} {m : ℚ} (h : listMin l = some m) : m ∈ l := by
  cases l with
  | nil => simp [listMin] at h
  | cons x xs =>
    simp only [listMin, Option.some.injEq] at h
    rw [← h]
    exact foldl_min_mem xs x

/-- C2: the source of BybitBook::reset does not replace the ladders: the
stale ask level (50, 3) survives a full snapshot carrying asks
(100, 1), (110, 0) and bid (90, 1); the zero-quantity snapshot level is
kept; and the cached best ask and mid price are left at their old values.
This contradicts the claim (and the function's own doc comment), which
promise ladder replacement, zero-quantity removal and recomputed extrema. -/
theorem c2_reset_keeps_stale_state :
    (bookC2.reset [⟨100, 1⟩, ⟨110, 0⟩] [⟨90, 1⟩] 5 5).asks
        = [(50, 3), (100, 1), (110, 0)]
  ∧ (bookC2.reset [⟨100, 1⟩, ⟨110, 0⟩] [⟨90, 1⟩] 5 5).bids = [(90, 1)]
  ∧ (bookC2.reset [⟨100, 1⟩, ⟨110, 0⟩] [⟨90, 1⟩] 5 5).best_ask = ⟨50, 3⟩
  ∧ (bookC2.reset [⟨100, 1⟩, ⟨110, 0⟩] [⟨90, 1⟩] 5 5).mid_price = 25
  ∧ (bookC2.reset [⟨100, 1⟩, ⟨110, 0⟩] [⟨90, 1⟩] 5 5).last_update = 5
  ∧ (bookC2.reset [⟨100, 1⟩, ⟨110, 0⟩] [⟨90, 1⟩] 5 5).sequence = 5 := by
  norm_num [BybitBook.reset, applyLevels, insertLevel, bookC2, BybitBook.new]

/-- C4: a frame whose timestamp is not newer than last_update (or, for
update_bba, whose sequence is not newer than the stored sequence) leaves
the book completely unchanged. -/
theorem c4_stale_frames_are_noops (b : BybitBook) (asks bids : List Level)
    (ts seq levels : ℕ) :
    (ts ≤ b.last_update ∨ seq ≤ b.sequence → b.update_bba asks bids ts seq = b)
  ∧ (ts ≤ b.last_update → b.update asks bids ts levels = b) := by
  refine ⟨fun h => ?_, fun h => ?_⟩
  · unfold BybitBook.update_bba
    exact if_pos h
  · unfold BybitBook.update
    exact if_pos h

/-- C4 witness: a book at timestamp 10 and sequence 5 drops an update_bba
frame with the older timestamp 3 even though its sequence 7 is newer. -/
theorem c4_witness : bookC4.update_bba [⟨101, 1⟩] [⟨99, 1⟩] 3 7 = bookC4 :=
  (c4_stale_frames_are_noops bookC4 [⟨101, 1⟩] [⟨99, 1⟩] 3 7 0).1
    (Or.inl (by norm_num [bookC4, BybitBook.new]))

/-- C10 counterexample: a depth delta carrying a bid at price 0 passes the
default bid threshold 0.0 and populates the empty bid side, so the claim
that update never applies a delta level to an empty side fails as
stated. -/
theorem c10_counterexample :
    bookC10.bids = [] ∧ (bookC10.update [] [⟨0, 1⟩] 1 50).bids = [(0, 1)] := by
  norm_num [BybitBook.update, bookC10, BybitBook.new, insertLevel]

/-- C3 counterexample: with no previous window avg_trade_price returns
mid_price (50), not the plain VWAP of the current window (100); and with
both windows present the marginal VWAP 125 is further scaled by
1/tick_window (here 2), yielding 62.5 instead of 125. -/
theorem c3_counterexample :
    avg_trade_price (fun _ => none) 50 none (.Bybit [⟨100, 10, "Buy"⟩]) 7 1 = 50
  ∧ avg_trade_price (fun _ => none) 50 none (.Bybit [⟨100, 10, "Buy"⟩]) 7 1 ≠ 100
  ∧ avg_trade_price (fun _ => none) 95 (some (.Bybit [⟨100, 10, "Buy"⟩]))
      (.Bybit [⟨125, 4, "Buy"⟩, ⟨100, 10, "Buy"⟩]) 7 2 = 125 / 2
  ∧ avg_trade_price (fun _ => none) 95 (some (.Bybit [⟨100, 10, "Buy"⟩]))
      (.Bybit [⟨125, 4, "Buy"⟩, ⟨100, 10, "Buy"⟩]) 7 2 ≠ 125 := by
  norm_num [avg_trade_price, bybitVolTurn]

/-- C7 counterexample: on a book whose weighted quantities are both zero
(empty ladders) the imbalance is 0/0 = NaN, which passes the nonzero test,
so get_wmid returns NaN rather than the mid price 5. -/
theorem c7_counterexample :
    bookC7.get_wmid id (some 1) = F64.nan
  ∧ bookC7.get_wmid id (some 1) ≠ F64.fin bookC7.mid_price := by
  have h1 : bookC7.get_wmid id (some 1) = F64.nan := by
    norm_num [BybitBook.get_wmid, BybitBook.calculate_weighted_bid,
      BybitBook.calculate_weighted_ask, bookC7, BybitBook.new, decay,
      F64.beq, F64.div, F64.mul, F64.add, F64.sub, F64.neg,
      F64.add_def, F64.sub_def, F64.mul_def, F64.div_def, F64.neg_def]
  refine ⟨h1, ?_⟩
  rw [h1]
  intro hcontra
  exact F64.noConfusion hcontra

/-- C5 counterexample: a NaN trade imbalance propagates through tanh and
clamp (Rust clamp returns NaN on NaN), so the stored skew is NaN and lies
outside [-1, 1]. -/
theorem c5_counterexample :
    ¬ F64.inUnitInterval ((engNan.generate_skew id id)).skew := by
  norm_num [Engine.generate_skew, engNan, rocZero, mpbZero, F64.inUnitInterval,
    F64.bgt, F64.blt, F64.beq, F64.clamp, F64.tanhF, F64.sqrtF, F64.fabs,
    F64.signum, F64.fmax, F64.fsum, MPB.std_dev, MPB.z_score, MPB.mean,
    MPB.current_basis, ROC.z_score, ROC.std_dev, ROC.mean, ROC.current,
    F64.div, F64.mul, F64.add, F64.sub, F64.neg,
    F64.add_def, F64.sub_def, F64.mul_def, F64.div_def, F64.neg_def]

theorem binance_parse_failure_panics (pf : String → Option ℚ)
    (h : pf "x" = none) :
    calculate_volumes pf (.Binance [⟨"1", "x", false⟩]) = none := by
  simp [calculate_volumes, binanceVolumes, h]

/-- C6: a Binance trade whose qty string does not parse makes the
parse().unwrap() call in calculate_volumes panic (modelled as none), so
trade-volume aggregation is not total on arbitrary venue payloads and the
core can abort on a malformed frame. -/
theorem c6_calculate_volumes_panics :
    calculate_volumes (fun _ => none) (.Binance [⟨"1", "x", false⟩]) = none :=
  binance_parse_failure_panics (fun _ => none) rfl

/-- C9 counterexample: with lot size 1 and a post-only maximum of 2.5 that
is not a multiple of the lot size, a clipped size of 2.5 rounds
half-away-from-zero to quantity 3, so an emitted order exceeds
post_only_max. -/
theorem c9_counterexample :
    ∃ o ∈ genC9.generate_skew_orders id id id (fun _ => 0) "S" 1 0 bookC9 true,
      ¬ o.qty ≤ bookC9.post_only_max := by
  have hlist : genC9.generate_skew_orders id id id (fun _ => 0) "S" 1 0 bookC9 true
      = [⟨"S", 89, 3, true⟩, ⟨"S", 100, 3, false⟩,
         ⟨"S", 99, 3, true⟩, ⟨"S", 110, 3, false⟩] := by
    norm_num [QuoteGenerator.generate_skew_orders, genC9, bookC9, BybitBook.new,
      geomspace, geometric_weights, round_price, round_size, round_step, round_to,
      truncQ, roundHalfAway, List.range_succ]
  refine ⟨⟨"S", 89, 3, true⟩, ?_, ?_⟩
  · rw [hlist]
    simp
  · norm_num [bookC9, BybitBook.new]

theorem updateBidFold_skip (t : ℚ) :
    ∀ (ls : List Level) (m : Ladder), (∀ l ∈ ls, ¬ l.price ≤ t) →
      ls.foldl
        (fun acc a => if a.price ≤ t then insertLevel a.price a.qty acc else acc) m
        = m := by
  intro ls
  induction ls with
  | nil => intro m _; rfl
  | cons hd tl ih =>
    intro m h
    rw [List.foldl_cons, if_neg (h hd (List.mem_cons_self hd tl))]
    exact ih m (fun l hl => h l (List.mem_cons_of_mem _ hl))

theorem updateAskFold_skip (t : ℚ) :
    ∀ (ls : List Level) (m : Ladder), (∀ l ∈ ls, ¬ t ≤ l.price) →
      ls.foldl
        (fun acc a => if t ≤ a.price then insertLevel a.price a.qty acc else acc) m
        = m := by
  intro ls
  induction ls with
  | nil => intro m _; rfl
  | cons hd tl ih =>
    intro m h
    rw [List.foldl_cons, if_neg (h hd (List.mem_cons_self hd tl))]
    exact ih m (fun l hl => h l (List.mem_cons_of_mem _ hl))

/-- C10 amended: a depth delta applies no level with positive price to an
empty bid side and no level with price below f64::MAX to an empty ask
side, so update alone cannot populate an empty side with a quotable
price; when both sides are empty and all delta prices are quotable, a
fresh frame changes last_update only (and a stale one nothing). -/
theorem c10_empty_sides_stay_empty (b : BybitBook) (asks bids : List Level)
    (ts levels : ℕ) :
    (b.bids = [] → (∀ l ∈ bids, 0 < l.price) →
      (b.update asks bids ts levels).bids = [])
  ∧ (b.asks = [] → (∀ l ∈ asks, l.price < maxF64) →
      (b.update asks bids ts levels).asks = [])
  ∧ (b.bids = [] → b.asks = [] → (∀ l ∈ bids, 0 < l.price) →
      (∀ l ∈ asks, l.price < maxF64) →
      b.update asks bids ts levels
        = if ts ≤ b.last_update then b else { b with last_update := ts }) := by
  refine ⟨fun hb hp => ?_, fun ha hp => ?_, fun hb ha hpb hpa => ?_⟩
  · unfold BybitBook.update
    split
    · exact hb
    · simp only [hb, List.reverse_nil, List.take_nil, List.getLast?_nil,
        Option.map_none', Option.getD_none]
      rw [updateBidFold_skip 0 bids [] (fun l hl => not_le.mpr (hp l hl))]
      simp
  · unfold BybitBook.update
    split
    · exact ha
    · simp only [ha, List.take_nil, List.getLast?_nil, Option.map_none',
        Option.getD_none]
      rw [updateAskFold_skip maxF64 asks [] (fun l hl => not_le.mpr (hp l hl))]
      simp
  · by_cases hts : ts ≤ b.last_update
    · rw [if_pos hts]
      unfold BybitBook.update
      rw [if_pos hts]
    · rw [if_neg hts]
      unfold BybitBook.update
      rw [if_neg hts]
      simp only [hb, ha, List.reverse_nil, List.take_nil, List.getLast?_nil,
        Option.map_none', Option.getD_none]
      rw [updateBidFold_skip 0 bids [] (fun l hl => not_le.mpr (hpb l hl)),
        updateAskFold_skip maxF64 asks [] (fun l hl => not_le.mpr (hpa l hl))]
      cases b with
  | mk lu sq a bi bask bbid mp tks ls mn mq pom =>
      simp_all

/-- C10 witness: on the fresh book both sides stay empty and only
last_update moves to the frame timestamp. -/
theorem c10_witness :
    BybitBook.new.update [⟨2, 1⟩] [⟨1, 1⟩] 1 3
      = { BybitBook.new with last_update := 1 } := by
  have h := (c10_empty_sides_stay_empty BybitBook.new [⟨2, 1⟩] [⟨1, 1⟩] 1 3).2.2
    rfl rfl (by norm_num) (by norm_num [maxF64])
  rw [h, if_neg (by norm_num [BybitBook.new])]

theorem goodBook_new : GoodBook BybitBook.new := by
  refine ⟨?_, ?_, ?_⟩ <;> intro kv hkv <;> simp [BybitBook.new] at hkv

theorem update_bba_good (b : BybitBook) (asks bids : List Level) (ts seq : ℕ)
    (hg : GoodBook b) (ha : levelsOK asks) (hb : levelsOK bids)
    (hcr : frameUncrossed asks bids) (hane : asks ≠ []) (hbne : bids ≠ []) :
    GoodBook (b.update_bba asks bids ts seq) := by
  obtain ⟨bp, hbp⟩ : ∃ bp, listMax (bids.map Level.price) = some bp := by
    cases bids with
    | nil => exact absurd rfl hbne
    | cons x xs => exact ⟨_, rfl⟩
  obtain ⟨ap, hap⟩ : ∃ ap, listMin (asks.map Level.price) = some ap := by
    cases asks with
    | nil => exact absurd rfl hane
    | cons x xs => exact ⟨_, rfl⟩
  obtain ⟨lb, hlb, hlbp⟩ := List.mem_map.mp (listMax_mem hbp)
  obtain ⟨la, hla, hlap⟩ := List.mem_map.mp (listMin_mem hap)
  have hpa : bp < ap := by
    rw [← hlbp, ← hlap]
    exact hcr lb hlb la hla
  unfold BybitBook.update_bba
  split
  · exact hg
  · simp only [hbp, hap, GoodBook, ladderOK, Uncrossed]
    refine ⟨?_, ?_, ?_⟩
    · intro kv hkv
      simp only [List.mem_filter] at hkv
      rcases mem_applyLevels bids b.bids hkv.1.1 with h | ⟨lv, hlv, rfl⟩
      · exact hg.1 kv h
      · exact hb lv hlv
    · intro kv hkv
      simp only [List.mem_filter] at hkv
      rcases mem_applyLevels asks b.asks hkv.1.1 with h | ⟨lv, hlv, rfl⟩
      · exact hg.2.1 kv h
      · exact ha lv hlv
    · intro kb hkb ka hka
      simp only [List.mem_filter] at hkb hka
      have h1 : kb.1 ≤ bp := of_decide_eq_true hkb.1.2
      have h2 : ap ≤ ka.1 := of_decide_eq_true hka.1.2
      calc kb.1 ≤ bp := h1
        _ < ap := hpa
        _ ≤ ka.1 := h2

theorem update_good (b : BybitBook) (asks bids : List Level) (ts levels : ℕ)
    (hg : GoodBook b) (ha : levelsOK asks) (hb : levelsOK bids) :
    GoodBook (b.update asks bids ts levels) := by
  unfold BybitBook.update
  split
  · exact hg
  · simp only [GoodBook, ladderOK, Uncrossed]
    have hmaxpos : (0 : ℚ) < maxF64 := by norm_num [maxF64]
    -- characterize the ask threshold
    have htA : (((b.asks.take levels).getLast?).map Prod.fst).getD maxF64 = maxF64
        ∨ ∃ kv0 ∈ b.asks,
            (((b.asks.take levels).getLast?).map Prod.fst).getD maxF64 = kv0.1 := by
      cases h : (b.asks.take levels).getLast? with
      | none => exact Or.inl rfl
      | some kv0 =>
        refine Or.inr ⟨kv0, ?_, rfl⟩
        exact List.mem_of_mem_take (List.mem_of_mem_getLast? h)
    have htB : (((b.bids.reverse.take levels).getLast?).map Prod.fst).getD 0 = 0
        ∨ ∃ kv0 ∈ b.bids,
            (((b.bids.reverse.take levels).getLast?).map Prod.fst).getD 0 = kv0.1 := by
      cases h : (b.bids.reverse.take levels).getLast? with
      | none => exact Or.inl rfl
      | some kv0 =>
        refine Or.inr ⟨kv0, ?_, rfl⟩
        exact List.mem_reverse.mp (List.mem_of_mem_take (List.mem_of_mem_getLast? h))
    refine ⟨?_, ?_, ?_⟩
    · intro kv hkv
      simp only [List.mem_filter] at hkv
      rcases mem_updateBidFold _ bids b.bids hkv.1 with h | ⟨a, haa, _, rfl⟩
      · exact hg.1 kv h
      · exact hb a haa
    · intro kv hkv
      simp only [List.mem_filter] at hkv
      rcases mem_updateAskFold _ asks b.asks hkv.1 with h | ⟨a, haa, _, rfl⟩
      · exact hg.2.1 kv h
      · exact ha a haa
    · intro kb hkb ka hka
      simp only [List.mem_filter] at hkb hka
      rcases mem_updateBidFold _ bids b.bids hkb.1 with hkbo | ⟨ab, hab, habt, rfl⟩
      · rcases mem_updateAskFold _ asks b.asks hka.1 with hkao | ⟨aa, haa2, haat, rfl⟩
        · exact hg.2.2 kb hkbo ka hkao
        · rcases htA with h | ⟨kv0, hkv0, h⟩
          · calc kb.1 < maxF64 := (hg.1 kb hkbo).2
              _ ≤ (aa.price, aa.qty).1 := by rw [← h]; exact haat
          · calc kb.1 < kv0.1 := hg.2.2 kb hkbo kv0 hkv0
              _ ≤ (aa.price, aa.qty).1 := by rw [← h]; exact haat
      · rcases mem_updateAskFold _ asks b.asks hka.1 with hkao | ⟨aa, haa2, haat, rfl⟩
        · rcases htB with h | ⟨kv0, hkv0, h⟩
          · calc (ab.price, ab.qty).1 ≤ 0 := by rw [← h]; exact habt
              _ < ka.1 := (hg.2.1 ka hkao).1
          · calc (ab.price, ab.qty).1 ≤ kv0.1 := by rw [← h]; exact habt
              _ < ka.1 := hg.2.2 kv0 hkv0 ka hkao
        · rcases htB with hB | ⟨kv0, hkv0, hB⟩
          · rcases htA with hA | ⟨kv1, hkv1, hA⟩
            · calc (ab.price, ab.qty).1 ≤ 0 := by rw [← hB]; exact habt
                _ < maxF64 := hmaxpos
                _ ≤ (aa.price, aa.qty).1 := by rw [← hA]; exact haat
            · calc (ab.price, ab.qty).1 ≤ 0 := by rw [← hB]; exact habt
                _ < kv1.1 := (hg.2.1 kv1 hkv1).1
                _ ≤ (aa.price, aa.qty).1 := by rw [← hA]; exact haat
          · rcases htA with hA | ⟨kv1, hkv1, hA⟩
            · calc (ab.price, ab.qty).1 ≤ kv0.1 := by rw [← hB]; exact habt
                _ < maxF64 := (hg.1 kv0 hkv0).2
                _ ≤ (aa.price, aa.qty).1 := by rw [← hA]; exact haat
            · calc (ab.price, ab.qty).1 ≤ kv0.1 := by rw [← hB]; exact habt
                _ < kv1.1 := hg.2.2 kv0 hkv0 kv1 hkv1
                _ ≤ (aa.price, aa.qty).1 := by rw [← hA]; exact haat

theorem reset_empty_good (b : BybitBook) (asks bids : List Level) (ts seq : ℕ)
    (hbids : b.bids = []) (hasks : b.asks = [])
    (ha : levelsOK asks) (hb : levelsOK bids) (hcr : frameUncrossed asks bids) :
    GoodBook (b.reset asks bids ts seq) := by
  unfold BybitBook.reset
  simp only [GoodBook, ladderOK, Uncrossed, hbids, hasks]
  refine ⟨?_, ?_, ?_⟩
  · intro kv hkv
    rcases mem_applyLevels bids [] hkv with h | ⟨lv, hlv, rfl⟩
    · simp at h
    · exact hb lv hlv
  · intro kv hkv
    rcases mem_applyLevels asks [] hkv with h | ⟨lv, hlv, rfl⟩
    · simp at h
    · exact ha lv hlv
  · intro kb hkb ka hka
    rcases mem_applyLevels bids [] hkb with h | ⟨lb, hlb, rfl⟩
    · simp at h
    · rcases mem_applyLevels asks [] hka with h | ⟨la, hla, rfl⟩
      · simp at h
      · exact hcr lb hlb la hla

theorem good_foldl : ∀ (es : List BookEvent) (b : BybitBook), GoodBook b →
    (∀ e ∈ es, WFEvent e) → (∀ e ∈ es, e.isSnapshot = false) →
    GoodBook (es.foldl applyEvent b) := by
  intro es
  induction es with
  | nil => intro b hg _ _; exact hg
  | cons e rest ih =>
    intro b hg hwf hns
    rw [List.foldl_cons]
    refine ih (applyEvent b e) ?_ (fun e' he' => hwf e' (List.mem_cons_of_mem _ he'))
      (fun e' he' => hns e' (List.mem_cons_of_mem _ he'))
    have hw := hwf e (List.mem_cons_self e rest)
    have hn := hns e (List.mem_cons_self e rest)
    cases e with
    | snapshot a bi t s => simp [BookEvent.isSnapshot] at hn
    | bba a bi t s =>
      exact update_bba_good b a bi t s hg hw.1 hw.2.1 hw.2.2.1 hw.2.2.2.1 hw.2.2.2.2
    | depth a bi t l => exact update_good b a bi t l hg hw.1 hw.2

/-- C1 amended: starting from the fresh book, any sequence of well-formed
events in which every top-of-book frame carries both sides (internally
uncrossed, quotable prices) and snapshots occur only as the first event
leaves the book uncrossed: every bid key is strictly below every ask
key. As stated over all well-formed events the claim fails (see the
counterexample): a one-sided top-of-book frame or a second snapshot can
cross the book, because update_bba prunes only against the incoming frame
and reset merges instead of replacing. -/
theorem c1_uncrossed_for_guarded_sequences (es : List BookEvent)
    (hwf : ∀ e ∈ es, WFEvent e)
    (hsnap : ∀ e ∈ es.tail, e.isSnapshot = false) :
    Uncrossed (es.foldl applyEvent BybitBook.new) := by
  cases es with
  | nil =>
    intro kb hkb ka hka
    simp [BybitBook.new] at hkb
  | cons e rest =>
    rw [List.foldl_cons]
    have hg : GoodBook (applyEvent BybitBook.new e) := by
      have hw := hwf e (List.mem_cons_self e rest)
      cases e with
      | snapshot a bi t s =>
        exact reset_empty_good _ a bi t s rfl rfl hw.1 hw.2.1 hw.2.2
      | bba a bi t s =>
        exact update_bba_good _ a bi t s goodBook_new hw.1 hw.2.1 hw.2.2.1
          hw.2.2.2.1 hw.2.2.2.2
      | depth a bi t l => exact update_good _ a bi t l goodBook_new hw.1 hw.2
    exact (good_foldl rest _ hg
      (fun e' he' => hwf e' (List.mem_cons_of_mem _ he')) hsnap).2.2

/-- C1 counterexample: two well-formed sequences cross the book.  A
two-sided frame then a bid-only top-of-book frame at 105 leaves bid 105
against resting ask 100 (update_bba prunes asks only when the frame has an
ask side); and two internally uncrossed snapshots leave bid 105 against
the stale ask 100 that reset failed to clear. -/
theorem c1_counterexample :
    (∀ e ∈ [evBBA1, evBBA2], WFEventBasic e)
  ∧ (∃ kb ∈ ([evBBA1, evBBA2].foldl applyEvent BybitBook.new).bids,
       ∃ ka ∈ ([evBBA1, evBBA2].foldl applyEvent BybitBook.new).asks, ¬ kb.1 < ka.1)
  ∧ (∀ e ∈ [evSnap1, evSnap2], WFEventBasic e)
  ∧ (∃ kb ∈ ([evSnap1, evSnap2].foldl applyEvent BybitBook.new).bids,
       ∃ ka ∈ ([evSnap1, evSnap2].foldl applyEvent BybitBook.new).asks,
         ¬ kb.1 < ka.1) := by
  have h1 : ([evBBA1, evBBA2].foldl applyEvent BybitBook.new).bids
        = [(90, 1), (105, 2)]
      ∧ ([evBBA1, evBBA2].foldl applyEvent BybitBook.new).asks = [(100, 1)] := by
    norm_num [evBBA1, evBBA2, applyEvent, BybitBook.update_bba, BybitBook.new,
      applyLevels, insertLevel, listMax, listMin]
  have h2 : ([evSnap1, evSnap2].foldl applyEvent BybitBook.new).bids
        = [(90, 1), (105, 1)]
      ∧ ([evSnap1, evSnap2].foldl applyEvent BybitBook.new).asks
        = [(100, 1), (110, 1)] := by
    norm_num [evSnap1, evSnap2, applyEvent, BybitBook.reset, BybitBook.new,
      applyLevels, insertLevel]
  refine ⟨?_, ⟨(105, 2), ?_, ⟨(100, 1), ?_, by norm_num⟩⟩,
    ?_, ⟨(105, 1), ?_, ⟨(100, 1), ?_, by norm_num⟩⟩⟩
  · norm_num [WFEventBasic, levelsOK, frameUncrossed, priceOK, maxF64,
      evBBA1, evBBA2]
  · rw [h1.1]; norm_num
  · rw [h1.2]; norm_num
  · norm_num [WFEventBasic, levelsOK, frameUncrossed, priceOK, maxF64,
      evSnap1, evSnap2]
  · rw [h2.1]; norm_num
  · rw [h2.2]; norm_num

/-- C1 witness: a snapshot followed by a two-sided top-of-book frame and a
depth delta keeps the book uncrossed. -/
theorem c1_witness :
    Uncrossed ([evSnap1, BookEvent.bba [⟨101, 1⟩] [⟨99, 2⟩] 2 2,
      BookEvent.depth [⟨102, 1⟩] [⟨98, 1⟩] 3 50].foldl applyEvent BybitBook.new) := by
  apply c1_uncrossed_for_guarded_sequences
  · norm_num [WFEvent, levelsOK, frameUncrossed, priceOK, maxF64, evSnap1]
  · intro e he
    simp only [List.tail_cons, List.mem_cons, List.not_mem_nil, or_false] at he
    rcases he with rfl | rfl <;> simp [BookEvent.isSnapshot]

theorem F64.isFinite_iff {x : F64} : x.isFinite ↔ ∃ q, x = F64.fin q := by
  cases x <;> simp [F64.isFinite]

theorem F64.isFinite.ne_nan {x : F64} (h : x.isFinite) : x ≠ F64.nan := by
  cases x <;> simp_all [F64.isFinite]

theorem F64.isFinite_add {x y : F64} (hx : x.isFinite) (hy : y.isFinite) :
    (x + y).isFinite := by
  cases x <;> cases y <;> simp_all [F64.isFinite, F64.add_def, F64.add]

theorem F64.isFinite_sub {x y : F64} (hx : x.isFinite) (hy : y.isFinite) :
    (x - y).isFinite := by
  cases x <;> cases y <;>
    simp_all [F64.isFinite, F64.sub_def, F64.sub, F64.add, F64.neg]

theorem F64.isFinite_mul {x y : F64} (hx : x.isFinite) (hy : y.isFinite) :
    (x * y).isFinite := by
  cases x <;> cases y <;> simp_all [F64.isFinite, F64.mul_def, F64.mul]

theorem F64.isFinite_div_finQ {x : F64} {b : ℚ} (hx : x.isFinite) (hb : b ≠ 0) :
    (x / F64.fin b).isFinite := by
  cases x <;> simp_all [F64.isFinite, F64.div_def, F64.div, hb]

theorem F64.isFinite_clamp {x : F64} (h : x ≠ F64.nan) (lo hi : ℚ) :
    (x.clamp lo hi).isFinite := by
  cases x <;> simp_all [F64.isFinite, F64.clamp]

theorem F64.clamp_unit_of_ne_nan {x : F64} (h : x ≠ F64.nan) :
    F64.inUnitInterval (x.clamp (-1) 1) := by
  cases x with
  | fin q =>
    refine ⟨le_max_left _ _, max_le (by norm_num) ?_⟩
    exact le_trans (min_le_left _ _) le_rfl
  | pinf => exact ⟨by norm_num, le_rfl⟩
  | ninf => exact ⟨le_rfl, by norm_num⟩
  | nan => exact absurd rfl h

theorem F64.isFinite_tanhF_of {t : ℚ → ℚ} {x : F64} (h : x ≠ F64.nan) :
    (F64.tanhF t x).isFinite := by
  cases x <;> simp_all [F64.isFinite, F64.tanhF]

theorem F64.isFinite_fabs {x : F64} (h : x.isFinite) : (F64.fabs x).isFinite := by
  cases x <;> simp_all [F64.isFinite, F64.fabs]

theorem F64.isFinite_signum {x : F64} (h : x ≠ F64.nan) :
    (F64.signum x).isFinite := by
  cases x with
  | fin q =>
    show (if q < 0 then F64.fin (-1) else F64.fin 1).isFinite
    split <;> trivial
  | pinf => trivial
  | ninf => trivial
  | nan => exact absurd rfl h

theorem F64.isFinite_sqrtF_nonneg {s : ℚ → ℚ} {q : ℚ} (h : 0 ≤ q) :
    (F64.sqrtF s (F64.fin q)).isFinite := by
  simp [F64.sqrtF, not_lt.mpr h, F64.isFinite]

theorem F64.fsum_isFinite {l : List F64} (h : ∀ x ∈ l, x.isFinite) :
    (F64.fsum l).isFinite := by
  have haux : ∀ (l : List F64) (acc : F64), acc.isFinite →
      (∀ x ∈ l, x.isFinite) → (l.foldl F64.add acc).isFinite := by
    intro l
    induction l with
    | nil => intro acc hacc _; exact hacc
    | cons x xs ih =>
      intro acc hacc hall
      rw [List.foldl_cons]
      refine ih _ ?_ (fun y hy => hall y (List.mem_cons_of_mem _ hy))
      have := F64.isFinite_add hacc (hall x (List.mem_cons_self x xs))
      simpa [F64.add_def] using this
  exact haux l (.fin 0) trivial h

theorem ROC.current_isFinite {r : ROC} (hv : ∀ x ∈ r.values, x.isFinite) :
    r.current.isFinite := by
  unfold ROC.current
  cases h : r.values.getLast? with
  | none => trivial
  | some x => exact hv x (List.mem_of_mem_getLast? h)

theorem ROC.mean_isFinite {r : ROC} (hs : r.sum.isFinite) : r.mean.isFinite := by
  unfold ROC.mean
  split
  · trivial
  · next hne =>
    refine F64.isFinite_div_finQ hs (Nat.cast_ne_zero.mpr ?_)
    intro h0
    exact hne (by simp [List.isEmpty_iff, List.length_eq_zero.mp h0])

theorem ROC.std_dev_isFinite (sqrtq : ℚ → ℚ) {r : ROC} (hs : r.sum.isFinite)
    (hss : r.sum_squares.isFinite) : (r.std_dev sqrtq).isFinite := by
  unfold ROC.std_dev
  split
  · trivial
  · next hlen =>
    dsimp only
    have hn : ((r.values.length : ℚ)) ≠ 0 := by
      have : 2 ≤ r.values.length := by omega
      positivity
    have hvar : (r.sum_squares / F64.fin (r.values.length : ℚ)
        - r.mean * r.mean).isFinite :=
      F64.isFinite_sub (F64.isFinite_div_finQ hss hn)
        (F64.isFinite_mul (ROC.mean_isFinite hs) (ROC.mean_isFinite hs))
    obtain ⟨v, hv⟩ := F64.isFinite_iff.mp hvar
    rw [hv]
    have hmax : F64.fmax (F64.fin v) (F64.fin 0) = F64.fin (max v 0) := rfl
    rw [hmax]
    exact F64.isFinite_sqrtF_nonneg (le_max_right v 0)

theorem ROC.z_score_isFinite (sqrtq : ℚ → ℚ) {r : ROC}
    (hv : ∀ x ∈ r.values, x.isFinite) (hs : r.sum.isFinite)
    (hss : r.sum_squares.isFinite) : (r.z_score sqrtq).isFinite := by
  unfold ROC.z_score
  dsimp only
  obtain ⟨s, hsd⟩ := F64.isFinite_iff.mp (ROC.std_dev_isFinite sqrtq hs hss)
  rw [hsd]
  split
  · trivial
  · next hbeq =>
    have hs0 : s ≠ 0 := by
      intro h0
      rw [h0] at hbeq
      simp [F64.beq] at hbeq
    exact F64.isFinite_div_finQ
      (F64.isFinite_sub (ROC.current_isFinite hv) (ROC.mean_isFinite hs)) hs0

theorem MPB.basisMean_isFinite {m : MPB} (hs : m.sum.isFinite) : m.mean.isFinite := by
  unfold MPB.mean
  split
  · trivial
  · next hne =>
    refine F64.isFinite_div_finQ hs (Nat.cast_ne_zero.mpr ?_)
    intro h0
    exact hne (by simp [List.isEmpty_iff, List.length_eq_zero.mp h0])

theorem MPB.basisStdDev_isFinite (sqrtq : ℚ → ℚ) {m : MPB} (hs : m.sum.isFinite)
    (hss : m.sum_squares.isFinite) : (m.std_dev sqrtq).isFinite := by
  unfold MPB.std_dev
  split
  · trivial
  · next hlen =>
    dsimp only
    have hn : ((m.basis_array.length : ℚ)) ≠ 0 := by
      have : 2 ≤ m.basis_array.length := by omega
      positivity
    have hvar : (m.sum_squares / F64.fin (m.basis_array.length : ℚ)
        - m.mean * m.mean).isFinite :=
      F64.isFinite_sub (F64.isFinite_div_finQ hss hn)
        (F64.isFinite_mul (MPB.basisMean_isFinite hs) (MPB.basisMean_isFinite hs))
    obtain ⟨v, hv⟩ := F64.isFinite_iff.mp hvar
    rw [hv]
    have hmax : F64.fmax (F64.fin v) (F64.fin 0) = F64.fin (max v 0) := rfl
    rw [hmax]
    exact F64.isFinite_sqrtF_nonneg (le_max_right v 0)

theorem MPB.basisZScore_isFinite (sqrtq : ℚ → ℚ) {m : MPB}
    (hmb : m.mid_price_basis.isFinite) (hs : m.sum.isFinite)
    (hss : m.sum_squares.isFinite) : (m.z_score sqrtq).isFinite := by
  unfold MPB.z_score
  dsimp only
  obtain ⟨s, hsd⟩ := F64.isFinite_iff.mp (MPB.basisStdDev_isFinite sqrtq hs hss)
  rw [hsd]
  split
  · trivial
  · next hbeq =>
    have hs0 : s ≠ 0 := by
      intro h0
      rw [h0] at hbeq
      simp [F64.beq] at hbeq
    exact F64.isFinite_div_finQ
      (F64.isFinite_sub hmb (MPB.basisMean_isFinite hs)) hs0
/-- C5 amended: whenever every stored feature value is finite, the skew
generated by generate_skew is a finite rational in [-1, 1], for every
interpretation of the library sqrt and tanh.  As stated over all engine
states (NaN included) the claim fails: see the counterexample. -/
theorem c5_skew_in_unit_for_finite (sqrtq tanhq : ℚ → ℚ) (e : Engine)
    (h : e.allFinite) :
    F64.inUnitInterval ((e.generate_skew sqrtq tanhq)).skew := by
  obtain ⟨hofi, hvoi, hti, hbba, hdeep, hvol, hrocv, hrocs, hrocss, hmb, hms, hmss⟩ := h
  unfold Engine.generate_skew
  dsimp only
  apply F64.clamp_unit_of_ne_nan
  apply F64.isFinite.ne_nan
  apply F64.isFinite_tanhF_of
  apply F64.isFinite.ne_nan
  apply F64.isFinite_mul
  · apply F64.isFinite_mul
    · -- raw_skew is finite
      apply F64.isFinite_add
      · apply F64.isFinite_add
        · apply F64.isFinite_add
          · apply F64.isFinite_add
            · exact F64.isFinite_mul trivial (F64.isFinite_clamp hti.ne_nan _ _)
            · exact F64.isFinite_mul trivial (F64.isFinite_clamp hbba.ne_nan _ _)
          · -- depth mean
            refine F64.isFinite_mul trivial ?_
            split
            · trivial
            · next hne =>
              refine F64.isFinite_div_finQ (F64.fsum_isFinite hdeep)
                (Nat.cast_ne_zero.mpr ?_)
              intro h0
              exact hne (by simp [List.isEmpty_iff, List.length_eq_zero.mp h0])
        · -- basis skew
          refine F64.isFinite_mul trivial ?_
          split
          · exact F64.isFinite_tanhF_of
              (MPB.basisZScore_isFinite sqrtq hmb hms hmss).ne_nan
          · exact F64.isFinite_signum hmb.ne_nan
      · -- order flow
        refine F64.isFinite_mul trivial ?_
        split
        · trivial
        · split <;> trivial
    · -- momentum factor
      exact F64.isFinite_fabs (F64.isFinite_tanhF_of
        (ROC.z_score_isFinite sqrtq hrocv hrocs hrocss).ne_nan)
  · -- volatility factor
    obtain ⟨cv, hcv⟩ := F64.isFinite_iff.mp hvol
    rw [hcv]
    have hmax : F64.fmax (F64.fin cv) (F64.fin (1 / 1000))
        = F64.fin (max cv (1 / 1000)) := rfl
    rw [hmax]
    refine F64.isFinite_div_finQ trivial (ne_of_gt ?_)
    exact lt_of_lt_of_le (by norm_num) (le_max_right cv (1 / 1000))

/-- C5 witness: a concrete all-finite engine state lands in the unit
interval. -/
theorem c5_witness : F64.inUnitInterval ((engZero.generate_skew id id)).skew := by
  apply c5_skew_in_unit_for_finite
  refine ⟨trivial, trivial, trivial, trivial, ?_, trivial, ?_, trivial, trivial,
    trivial, trivial, trivial⟩
  · intro x hx
    simp only [engZero, List.mem_singleton] at hx
    rw [hx]
    trivial
  · intro x hx
    simp [engZero, rocZero] at hx

theorem foldl_add_nonneg :
    ∀ (l : List ℚ) (a : ℚ), 0 ≤ a → (∀ x ∈ l, 0 ≤ x) → 0 ≤ l.foldl (· + ·) a := by
  intro l
  induction l with
  | nil => intro a ha _; exact ha
  | cons x xs ih =>
    intro a ha hall
    rw [List.foldl_cons]
    exact ih (a + x) (add_nonneg ha (hall x (List.mem_cons_self x xs)))
      (fun y hy => hall y (List.mem_cons_of_mem _ hy))

theorem decay_pos {expq : ℚ → ℚ} (hexp : ∀ x, 0 < expq x) (v : ℚ) (r : Option ℚ) :
    0 < decay expq v r := by
  unfold decay
  cases r <;> exact hexp _

theorem calculate_weighted_ask_nonneg (expq : ℚ → ℚ) (b : BybitBook) (d : ℕ)
    (hexp : ∀ x, 0 < expq x) (hq : ∀ kv ∈ b.asks, 0 ≤ kv.2) :
    0 ≤ b.calculate_weighted_ask expq d (some (1 / 2)) := by
  unfold BybitBook.calculate_weighted_ask
  refine foldl_add_nonneg _ 0 le_rfl ?_
  intro x hx
  obtain ⟨ikv, hikv, rfl⟩ := List.mem_map.mp hx
  refine mul_nonneg (le_of_lt (decay_pos hexp _ _)) ?_
  have h2 := List.mem_enum_iff_getElem?.mp hikv
  have h3 : ikv.2 ∈ b.asks.take d := List.getElem?_mem h2
  exact hq ikv.2 (List.mem_of_mem_take h3)

theorem calculate_weighted_bid_nonneg (expq : ℚ → ℚ) (b : BybitBook) (d : ℕ)
    (hexp : ∀ x, 0 < expq x) (hq : ∀ kv ∈ b.bids, 0 ≤ kv.2) :
    0 ≤ b.calculate_weighted_bid expq d (some (1 / 2)) := by
  unfold BybitBook.calculate_weighted_bid
  refine foldl_add_nonneg _ 0 le_rfl ?_
  intro x hx
  obtain ⟨ikv, hikv, rfl⟩ := List.mem_map.mp hx
  refine mul_nonneg (le_of_lt (decay_pos hexp _ _)) ?_
  have h2 := List.mem_enum_iff_getElem?.mp hikv
  have h3 : ikv.2 ∈ b.bids.reverse.take d := List.getElem?_mem h2
  exact hq ikv.2 (List.mem_reverse.mp (List.mem_of_mem_take h3))

/-- C7 amended: for nonnegative resting quantities and a positive exp,
get_wmid at depth d returns the weighted combination
best_bid·(1-r) + best_ask·r with r = wbid/(wbid+wask) whenever wbid is
nonzero; it returns mid_price exactly when wbid = 0 and wask is nonzero;
and when both weighted quantities vanish the imbalance is 0/0 = NaN,
which passes the nonzero test, so the result is NaN rather than
mid_price.  The claim as stated (denominator zero gives mid_price, never
NaN) is refuted by the counterexample. -/
theorem c7_wmid_behaviour (expq : ℚ → ℚ) (b : BybitBook) (d : ℕ)
    (hexp : ∀ x, 0 < expq x)
    (hqa : ∀ kv ∈ b.asks, 0 ≤ kv.2) (hqb : ∀ kv ∈ b.bids, 0 ≤ kv.2) :
    (b.calculate_weighted_bid expq d (some (1 / 2)) = 0 →
      b.calculate_weighted_ask expq d (some (1 / 2)) = 0 →
      b.get_wmid expq (some d) = F64.nan)
  ∧ (b.calculate_weighted_bid expq d (some (1 / 2)) = 0 →
      b.calculate_weighted_ask expq d (some (1 / 2)) ≠ 0 →
      b.get_wmid expq (some d) = F64.fin b.mid_price)
  ∧ (b.calculate_weighted_bid expq d (some (1 / 2)) ≠ 0 →
      b.get_wmid expq (some d)
        = F64.fin (b.best_bid.price
            * (1 - b.calculate_weighted_bid expq d (some (1 / 2))
                / (b.calculate_weighted_bid expq d (some (1 / 2))
                  + b.calculate_weighted_ask expq d (some (1 / 2))))
          + b.best_ask.price
            * (b.calculate_weighted_bid expq d (some (1 / 2))
              / (b.calculate_weighted_bid expq d (some (1 / 2))
                + b.calculate_weighted_ask expq d (some (1 / 2)))))) := by
  refine ⟨fun h1 h2 => ?_, fun h1 h2 => ?_, fun h1 => ?_⟩
  · unfold BybitBook.get_wmid
    dsimp only
    rw [h1, h2]
    simp [F64.div_def, F64.div, F64.beq, F64.mul_def, F64.mul,
      F64.add_def, F64.add, F64.sub_def, F64.sub, F64.neg]
  · unfold BybitBook.get_wmid
    dsimp only
    rw [h1]
    have hdiv : F64.fin 0
        / F64.fin (0 + b.calculate_weighted_ask expq d (some (1 / 2)))
        = F64.fin 0 := by
      rw [zero_add, F64.div_def]
      show (if b.calculate_weighted_ask expq d (some (1 / 2)) = 0 then
          (if (0 : ℚ) = 0 then F64.nan else if (0 : ℚ) < 0 then F64.pinf
            else F64.ninf)
        else F64.fin (0 / b.calculate_weighted_ask expq d (some (1 / 2))))
        = F64.fin 0
      rw [if_neg h2, zero_div]
    rw [hdiv]
    simp [F64.beq]
  · have hwb : 0 < b.calculate_weighted_bid expq d (some (1 / 2)) :=
      lt_of_le_of_ne (calculate_weighted_bid_nonneg expq b d hexp hqb)
        (Ne.symm h1)
    have hwa : 0 ≤ b.calculate_weighted_ask expq d (some (1 / 2)) :=
      calculate_weighted_ask_nonneg expq b d hexp hqa
    have htot : b.calculate_weighted_bid expq d (some (1 / 2))
        + b.calculate_weighted_ask expq d (some (1 / 2)) ≠ 0 :=
      ne_of_gt (add_pos_of_pos_of_nonneg hwb hwa)
    have hr : b.calculate_weighted_bid expq d (some (1 / 2))
        / (b.calculate_weighted_bid expq d (some (1 / 2))
          + b.calculate_weighted_ask expq d (some (1 / 2))) ≠ 0 :=
      div_ne_zero h1 htot
    unfold BybitBook.get_wmid
    dsimp only
    have hdiv : F64.fin (b.calculate_weighted_bid expq d (some (1 / 2)))
        / F64.fin (b.calculate_weighted_bid expq d (some (1 / 2))
          + b.calculate_weighted_ask expq d (some (1 / 2)))
        = F64.fin (b.calculate_weighted_bid expq d (some (1 / 2))
          / (b.calculate_weighted_bid expq d (some (1 / 2))
            + b.calculate_weighted_ask expq d (some (1 / 2)))) := by
      rw [F64.div_def]
      show (if b.calculate_weighted_bid expq d (some (1 / 2))
            + b.calculate_weighted_ask expq d (some (1 / 2)) = 0 then
          (if b.calculate_weighted_bid expq d (some (1 / 2)) = 0 then F64.nan
            else if 0 < b.calculate_weighted_bid expq d (some (1 / 2)) then
              F64.pinf
            else F64.ninf)
        else F64.fin (b.calculate_weighted_bid expq d (some (1 / 2))
          / (b.calculate_weighted_bid expq d (some (1 / 2))
            + b.calculate_weighted_ask expq d (some (1 / 2)))))
        = F64.fin (b.calculate_weighted_bid expq d (some (1 / 2))
          / (b.calculate_weighted_bid expq d (some (1 / 2))
            + b.calculate_weighted_ask expq d (some (1 / 2))))
      rw [if_neg htot]
    rw [hdiv]
    have hbeq : F64.beq (F64.fin (b.calculate_weighted_bid expq d (some (1 / 2))
        / (b.calculate_weighted_bid expq d (some (1 / 2))
          + b.calculate_weighted_ask expq d (some (1 / 2))))) (F64.fin 0)
        = false := by
      show decide (b.calculate_weighted_bid expq d (some (1 / 2))
          / (b.calculate_weighted_bid expq d (some (1 / 2))
            + b.calculate_weighted_ask expq d (some (1 / 2))) = 0) = false
      exact decide_eq_false hr
    rw [hbeq]
    simp [F64.mul_def, F64.mul, F64.sub_def, F64.sub, F64.neg,
      F64.add_def, F64.add, sub_eq_add_neg]

/-- C7 witness: on a one-level book with unit exp the weighted mid is
90·(3/5) + 100·(2/5) = 94. -/
theorem c7_witness : bookC7w.get_wmid (fun _ => 1) (some 1) = F64.fin 94 := by
  have hqa : ∀ kv ∈ bookC7w.asks, (0 : ℚ) ≤ kv.2 := by
    intro kv hkv
    simp [bookC7w, BybitBook.new] at hkv
    rw [hkv]
    norm_num
  have hqb : ∀ kv ∈ bookC7w.bids, (0 : ℚ) ≤ kv.2 := by
    intro kv hkv
    simp [bookC7w, BybitBook.new] at hkv
    rw [hkv]
    norm_num
  have hwb : bookC7w.calculate_weighted_bid (fun _ => 1) 1 (some (1 / 2)) ≠ 0 := by
    norm_num [BybitBook.calculate_weighted_bid, bookC7w, BybitBook.new, decay]
  have h := (c7_wmid_behaviour (fun _ => 1) bookC7w 1 (fun _ => one_pos)
    hqa hqb).2.2 hwb
  rw [h]
  norm_num [BybitBook.calculate_weighted_bid, BybitBook.calculate_weighted_ask,
    bookC7w, BybitBook.new, decay]

theorem bybitVolTurn_go :
    ∀ (l : List WsTrade) (a b : ℚ),
      l.foldl (fun acc tr => (acc.1 + tr.volume, acc.2 + tr.volume * tr.price)) (a, b)
        = (a + (l.map WsTrade.volume).sum,
           b + (l.map (fun t => t.volume * t.price)).sum) := by
  intro l
  induction l with
  | nil => intro a b; simp
  | cons t ts ih =>
    intro a b
    rw [List.foldl_cons, ih]
    simp
    constructor <;> ring

theorem bybitVolTurn_eq (l : List WsTrade) :
    bybitVolTurn l = ((l.map WsTrade.volume).sum,
      (l.map (fun t => t.volume * t.price)).sum) := by
  unfold bybitVolTurn
  rw [bybitVolTurn_go]
  simp

/-- C3 amended: avg_trade_price returns mid_price whenever no previous
window is supplied (regardless of the current window); on matching Bybit
windows it returns the marginal VWAP (T_cur - T_old)/(V_cur - V_old)
multiplied by 1/tick_window when the volumes differ and prev_avg when they
agree; the Binance pairing behaves the same on parse-filtered sums; and
mixed venue variants return prev_avg. -/
theorem c3_avg_trade_price_behaviour (pf : String → Option ℚ) (mid prev : ℚ)
    (tw : ℕ) (o c : List WsTrade) (ob cb : List AggrTradesEvent)
    (curr : TradeType) :
    (avg_trade_price pf mid none curr prev tw = mid)
  ∧ ((o.map WsTrade.volume).sum ≠ (c.map WsTrade.volume).sum →
      avg_trade_price pf mid (some (.Bybit o)) (.Bybit c) prev tw
        = (((c.map (fun t => t.volume * t.price)).sum
              - (o.map (fun t => t.volume * t.price)).sum)
            / ((c.map WsTrade.volume).sum - (o.map WsTrade.volume).sum))
          * (1 / (tw : ℚ)))
  ∧ ((o.map WsTrade.volume).sum = (c.map WsTrade.volume).sum →
      avg_trade_price pf mid (some (.Bybit o)) (.Bybit c) prev tw = prev)
  ∧ ((binanceVolTurn pf ob).1 ≠ (binanceVolTurn pf cb).1 →
      avg_trade_price pf mid (some (.Binance ob)) (.Binance cb) prev tw
        = (((binanceVolTurn pf cb).2 - (binanceVolTurn pf ob).2)
            / ((binanceVolTurn pf cb).1 - (binanceVolTurn pf ob).1))
          * (1 / (tw : ℚ)))
  ∧ ((binanceVolTurn pf ob).1 = (binanceVolTurn pf cb).1 →
      avg_trade_price pf mid (some (.Binance ob)) (.Binance cb) prev tw = prev)
  ∧ (avg_trade_price pf mid (some (.Bybit o)) (.Binance cb) prev tw = prev)
  ∧ (avg_trade_price pf mid (some (.Binance ob)) (.Bybit c) prev tw = prev) := by
  refine ⟨rfl, fun h => ?_, fun h => ?_, fun h => ?_, fun h => ?_, rfl, rfl⟩
  · unfold avg_trade_price
    dsimp only
    rw [bybitVolTurn_eq, bybitVolTurn_eq]
    rw [if_pos h]
  · unfold avg_trade_price
    dsimp only
    rw [bybitVolTurn_eq, bybitVolTurn_eq]
    rw [if_neg (by simpa using h)]
  · unfold avg_trade_price
    dsimp only
    rw [if_pos h]
  · unfold avg_trade_price
    dsimp only
    rw [if_neg (by simpa using h)]

/-- C3 witness: on the spec's worked windows, (1500-1000)/(14-10) scaled by
1/tick_window 2 gives 62.5. -/
theorem c3_witness :
    avg_trade_price (fun _ => none) 95 (some (.Bybit [⟨100, 10, "Buy"⟩]))
      (.Bybit [⟨125, 4, "Buy"⟩, ⟨100, 10, "Buy"⟩]) 7 2 = 125 / 2 := by
  have h := (c3_avg_trade_price_behaviour (fun _ => none) 95 7 2
    [⟨100, 10, "Buy"⟩] [⟨125, 4, "Buy"⟩, ⟨100, 10, "Buy"⟩] [] []
    (.Bybit [])).2.1 (by norm_num)
  rw [h]
  norm_num

theorem roundHalfAway_mono {x y : ℚ} (h : x ≤ y) :
    roundHalfAway x ≤ roundHalfAway y := by
  unfold roundHalfAway
  split <;> split
  · next hx hy => exact Int.floor_le_floor (by linarith)
  · next hx hy => exact absurd (le_trans hx h) hy
  · next hx hy =>
    have h1 : 0 ≤ ⌊-x + 1 / 2⌋ := Int.floor_nonneg.mpr (by
      have := not_le.mp hx
      linarith)
    have h2 : 0 ≤ ⌊y + 1 / 2⌋ := Int.floor_nonneg.mpr (by linarith)
    omega
  · next hx hy =>
    have := Int.floor_le_floor (α := ℚ) (show -y + 1 / 2 ≤ -x + 1 / 2 by linarith)
    omega

theorem roundHalfAway_natCast (k : ℕ) : roundHalfAway ((k : ℚ)) = k := by
  unfold roundHalfAway
  rw [if_pos (by positivity)]
  rw [Int.floor_eq_iff]
  constructor
  · push_cast
    linarith
  · push_cast
    linarith

/-- C8: generate_skew_orders emits buy orders only when inventory_delta is
below 0.5 and sell orders only when inventory_delta is above -0.5, for
every generator state, book, spread, skew and interpretation of the
library math functions; with inventory_delta 0.6 the bid side is fully
suppressed. -/
theorem c8_inventory_guardrail (g : QuoteGenerator) (sqrtq lnq expq : ℚ → ℚ)
    (cdp : ℚ → ℕ) (symbol : String) (spread skew : ℚ) (book : BybitBook)
    (pos : Bool) :
    ∀ o ∈ g.generate_skew_orders sqrtq lnq expq cdp symbol spread skew book pos,
      (o.is_buy = true → g.inventory_delta < 1 / 2)
      ∧ (o.is_buy = false → -(1 / 2) < g.inventory_delta) := by
  intro o ho
  unfold QuoteGenerator.generate_skew_orders at ho
  dsimp only at ho
  rw [List.mem_filter] at ho
  obtain ⟨ho, -⟩ := ho
  rw [List.mem_flatMap] at ho
  obtain ⟨i, hi, ho⟩ := ho
  rw [List.mem_append] at ho
  constructor
  · intro hbuy
    by_contra hnd
    rcases ho with ho | ho
    · rw [if_neg hnd] at ho
      split at ho
      · next heq1 heq2 => simp at heq2
      · simp at ho
    · split at ho
      · next heq1 heq2 =>
        simp only [List.mem_singleton] at ho
        rw [ho] at hbuy
        simp at hbuy
      · simp at ho
  · intro hsell
    by_contra hnd
    rcases ho with ho | ho
    · split at ho
      · next heq1 heq2 =>
        simp only [List.mem_singleton] at ho
        rw [ho] at hsell
        simp at hsell
      · simp at ho
    · rw [if_neg hnd] at ho
      split at ho
      · next heq1 heq2 => simp at heq2
      · simp at ho

/-- C9 amended: every emitted order satisfies the minimum notional on its
rounded price and quantity, and its quantity is an integer multiple of the
lot size; the bound qty ≤ post_only_max additionally needs post_only_max
itself to be a multiple of the lot size, because round_step rounds half
away from zero and can round a clipped size up past a non-multiple cap
(see the counterexample). -/
theorem c9_order_constraints (g : QuoteGenerator) (sqrtq lnq expq : ℚ → ℚ)
    (cdp : ℚ → ℕ) (symbol : String) (spread skew : ℚ) (book : BybitBook)
    (pos : Bool) (hlot : 0 < book.lot_size)
    (hpom : ∃ k : ℕ, book.post_only_max = (k : ℚ) * book.lot_size) :
    ∀ o ∈ g.generate_skew_orders sqrtq lnq expq cdp symbol spread skew book pos,
      book.min_notional ≤ o.price * o.qty
      ∧ (∃ z : ℤ, o.qty = (z : ℚ) * book.lot_size)
      ∧ o.qty ≤ book.post_only_max := by
  intro o ho
  unfold QuoteGenerator.generate_skew_orders at ho
  dsimp only at ho
  rw [List.mem_filter] at ho
  obtain ⟨hmem, hnot⟩ := ho
  have hnotional : book.min_notional ≤ o.price * o.qty := of_decide_eq_true hnot
  rw [List.mem_flatMap] at hmem
  obtain ⟨i, hi, hmem⟩ := hmem
  rw [List.mem_append] at hmem
  have hqty : ∃ x, o.qty = round_size (min x book.post_only_max) book := by
    rcases hmem with h | h
    · split at h
      · next bp bs heq1 heq2 =>
        simp only [List.mem_singleton] at h
        exact ⟨bs / bp, by rw [h]⟩
      · simp at h
    · split at h
      · next ap asz heq1 heq2 =>
        simp only [List.mem_singleton] at h
        exact ⟨asz / ap, by rw [h]⟩
      · simp at h
  obtain ⟨x, hx⟩ := hqty
  refine ⟨hnotional, ⟨roundHalfAway (min x book.post_only_max / book.lot_size),
    by rw [hx]; rfl⟩, ?_⟩
  rw [hx]
  obtain ⟨k, hk⟩ := hpom
  unfold round_size round_step
  have h1 : min x book.post_only_max / book.lot_size ≤ (k : ℚ) := by
    rw [div_le_iff₀ hlot, ← hk]
    exact min_le_right _ _
  have h2 : roundHalfAway (min x book.post_only_max / book.lot_size) ≤ (k : ℤ) := by
    have hm := roundHalfAway_mono h1
    rw [roundHalfAway_natCast] at hm
    exact_mod_cast hm
  calc (roundHalfAway (min x book.post_only_max / book.lot_size) : ℚ)
      * book.lot_size
      ≤ (k : ℚ) * book.lot_size := by
        apply mul_le_mul_of_nonneg_right _ (le_of_lt hlot)
        exact_mod_cast h2
    _ = book.post_only_max := hk.symm

/-- C8 witness: with inventory delta 0.6 the generator emits an ask, and
the theorem instantiated at that order yields the guardrail bound. -/
theorem c8_witness : -(1 / 2 : ℚ) < genC8.inventory_delta := by
  have hlist : genC8.generate_skew_orders id id id (fun _ => 0) "S" 1 0 bookC8 true
      = [⟨"S", 100, 0, false⟩, ⟨"S", 110, 0, false⟩] := by
    norm_num [QuoteGenerator.generate_skew_orders, genC8, bookC8, BybitBook.new,
      geomspace, geometric_weights, round_price, round_size, round_step, round_to,
      truncQ, roundHalfAway, List.range_succ]
  have hmem : (⟨"S", 100, 0, false⟩ : BatchOrder)
      ∈ genC8.generate_skew_orders id id id (fun _ => 0) "S" 1 0 bookC8 true := by
    rw [hlist]
    simp
  exact (c8_inventory_guardrail genC8 id id id (fun _ => 0) "S" 1 0 bookC8 true
    ⟨"S", 100, 0, false⟩ hmem).2 rfl

/-- C9 witness: with post_only_max 10 a multiple of lot size 1, an emitted
order's quantity respects the cap. -/
theorem c9_witness : (⟨"S", 100, 0, false⟩ : BatchOrder).qty ≤ bookC8.post_only_max := by
  have hlist : genC8.generate_skew_orders id id id (fun _ => 0) "S" 1 0 bookC8 true
      = [⟨"S", 100, 0, false⟩, ⟨"S", 110, 0, false⟩] := by
    norm_num [QuoteGenerator.generate_skew_orders, genC8, bookC8, BybitBook.new,
      geomspace, geometric_weights, round_price, round_size, round_step, round_to,
      truncQ, roundHalfAway, List.range_succ]
  have hmem : (⟨"S", 100, 0, false⟩ : BatchOrder)
      ∈ genC8.generate_skew_orders id id id (fun _ => 0) "S" 1 0 bookC8 true := by
    rw [hlist]
    simp
  exact (c9_order_constraints genC8 id id id (fun _ => 0) "S" 1 0 bookC8 true
    (by norm_num [bookC8, BybitBook.new])
    ⟨10, by norm_num [bookC8, BybitBook.new]⟩
    ⟨"S", 100, 0, false⟩ hmem).2.2
